import Mathlib

/-
  Verification of pao_equi_ml.py (equivariant PAO basis prediction).

  Shallow embedding of the numerical core:
  the coupling-table enumeration and Wigner dictionary built in
  PAO_model.__init__, the single-sample and batched auxiliary-matrix
  assemblers build_aux_H / build_aux_H_batch, the eigenvector selection of
  PAO_model.forward, the projector loss, the Xblock serialization round
  trip of write_pao_file / parse_pao_file, and the neighbor-list
  construction of pao_objects_from_file.

  Matrices are modelled as total functions over natural-number indices with
  real entries (exact arithmetic stands in for the float computation; the
  Xblock text round trip is modelled over the rationals, where the decimal
  rounding of the serialization is exact).  The e3nn wigner_3j coefficient
  tables are external library inputs to the model, so the embedding takes
  them as a parameter
  (wig : l1 -> l2 -> lc -> (m1 -> m2 -> mc -> Real)).
-/

namespace PaoEquiMl

/-- Parity and triangle admissibility test for a coupled momentum, from the
inner loop of PAO_model.__init__ (and of both assemblers): iterate
mu_ij over range(abs(mu_i-mu_j), mu_i+mu_j+1) and keep the value when
(mu_i%2==mu_j%2 and mu_ij%2==0) or (mu_i%2!=mu_j%2 and mu_ij%2==1).
Natural-number truncated subtraction expresses abs on Nat. -/
def admissible (a b c : ℕ) : Bool :=
  (decide (b - a ≤ c) && decide (a - b ≤ c) && decide (c ≤ a + b)) &&
  ((a % 2 == b % 2) && (c % 2 == 0) || (a % 2 != b % 2) && (c % 2 == 1))

/-- The admissible coupled momenta for the shell pair (a, b), in the
enumeration order of the source loop. -/
def tripsFor (a b : ℕ) : List ℕ :=
  (List.range (a + b + 1)).filter (fun c => admissible a b c)

/-- The coupling-table enumeration of PAO_model.__init__: index triples
(i, j, mu_ij) with i the position of the first shell in ls, j >= i the
position of the second shell, and mu_ij an admissible coupled momentum for
the pair of l-values, in the exact nesting order of the source loops. -/
def pairTrips (ls : List ℕ) : List (ℕ × ℕ × ℕ) :=
  (List.range ls.length).flatMap (fun i =>
    (List.range (ls.length - i)).flatMap (fun jd =>
      (tripsFor (ls.getD i 0) (ls.getD (i + jd) 0)).map (fun c => (i, i + jd, c))))

/-- The l-value triples (l_i, l_j, l_c) of the coupling table, in
enumeration order (the keys written to wigner_dict). -/
def tripleValues (ls : List ℕ) : List (ℕ × ℕ × ℕ) :=
  (pairTrips ls).map (fun tr => (ls.getD tr.1 0, ls.getD tr.2.1 0, tr.2.2))

/-- The central element wig_zero_factor of a raw coupling tensor:
wigner_m[(2*mu_i+1)//2, (2*mu_j+1)//2, (2*mu_ij+1)//2]. -/
def rawCentral (wig : ℕ → ℕ → ℕ → ℕ → ℕ → ℕ → ℝ) (a b c : ℕ) : ℝ :=
  wig a b c ((2 * a + 1) / 2) ((2 * b + 1) / 2) ((2 * c + 1) / 2)

/-- The wigner_dict built in PAO_model.__init__, as an association list in
write order: for every enumerated triple the stored tensor is the raw
coupling tensor rescaled by its own central element
(wigner_m = wig_zero_factor * wigner_m); the raw e3nn wigner_3j tables are
the parameter wig. -/
def wigner_dict (ls : List ℕ) (wig : ℕ → ℕ → ℕ → ℕ → ℕ → ℕ → ℝ) :
    List ((ℕ × ℕ × ℕ) × (ℕ → ℕ → ℕ → ℝ)) :=
  (pairTrips ls).map (fun tr =>
    ((ls.getD tr.1 0, ls.getD tr.2.1 0, tr.2.2),
     fun p q k =>
       rawCentral wig (ls.getD tr.1 0) (ls.getD tr.2.1 0) tr.2.2 *
         wig (ls.getD tr.1 0) (ls.getD tr.2.1 0) tr.2.2 p q k))

/-- Row/column offset of shell i in the auxiliary matrix: the cumulative
sum of the widths 2*l+1 of the preceding shells (aux_H_idx_in of
PAO_model.__init__). -/
def widthsSum (ls : List ℕ) (i : ℕ) : ℕ :=
  ((ls.take i).map (fun l => 2 * l + 1)).sum

/-- One bilinear contraction of build_aux_H: the (p, q) entry of
matmul(wigner_m, pred[idx_in:idx_out]) for the stored tensor of the triple
(a, b, c) whose prediction-vector slice starts at off. -/
def contSingle (wig : ℕ → ℕ → ℕ → ℕ → ℕ → ℕ → ℝ) (a b c : ℕ)
    (pred : ℕ → ℝ) (off p q : ℕ) : ℝ :=
  ∑ k ∈ Finset.range (2 * c + 1), wig a b c p q k * pred (off + k)

/-- The batched contraction of build_aux_H_batch: after the two transposes,
contraction_coefficients[s, p, q] = sum_k wigner_m[p, q, k] * pred[s, k0+k]
where k0 is the slice offset. -/
def contBatch (wig : ℕ → ℕ → ℕ → ℕ → ℕ → ℕ → ℝ) (a b c : ℕ)
    (predB : ℕ → ℕ → ℝ) (off s p q : ℕ) : ℝ :=
  ∑ k ∈ Finset.range (2 * c + 1), wig a b c p q k * predB s (off + k)

/-- The in-place block update aux_H[r0:r0+w1, c0:c0+w2] += C of the
assemblers: the right-hand side reads the matrix before the write. -/
def blockAdd (A : ℕ → ℕ → ℝ) (r0 w1 c0 w2 : ℕ) (C : ℕ → ℕ → ℝ) : ℕ → ℕ → ℝ :=
  fun r c =>
    if r0 ≤ r ∧ r < r0 + w1 ∧ c0 ≤ c ∧ c < c0 + w2
    then A r c + C (r - r0) (c - c0) else A r c

/-- The batched block update aux_H[:, r0:r0+w1, c0:c0+w2] += C: the same
region of every sample of the batch is updated. -/
def blockAddB (A : ℕ → ℕ → ℕ → ℝ) (r0 w1 c0 w2 : ℕ) (C : ℕ → ℕ → ℕ → ℝ) :
    ℕ → ℕ → ℕ → ℝ :=
  fun s r c =>
    if r0 ≤ r ∧ r < r0 + w1 ∧ c0 ≤ c ∧ c < c0 + w2
    then A s r c + C s (r - r0) (c - c0) else A s r c

/-- One iteration of the triple loop of PAO_model.build_aux_H: contract the
prediction slice at the running offset against the coupling tensor, add the
resulting block at (block_i, block_j), and when the two shell indices
differ also add its transpose at (block_j, block_i).  The state carries the
running prediction-vector offset (the cumulative idx_in boundaries are the
running sums of 2*mu_ij+1, tracked in the source by jdx_shift into the
precomputed cumsum arrays). -/
def stepH (ls : List ℕ) (wig : ℕ → ℕ → ℕ → ℕ → ℕ → ℕ → ℝ) (pred : ℕ → ℝ)
    (st : ℕ × (ℕ → ℕ → ℝ)) (tr : ℕ × ℕ × ℕ) : ℕ × (ℕ → ℕ → ℝ) :=
  (st.1 + (2 * tr.2.2 + 1),
    if tr.1 = tr.2.1 then
      blockAdd st.2 (widthsSum ls tr.1) (2 * ls.getD tr.1 0 + 1)
        (widthsSum ls tr.2.1) (2 * ls.getD tr.2.1 0 + 1)
        (contSingle wig (ls.getD tr.1 0) (ls.getD tr.2.1 0) tr.2.2 pred st.1)
    else
      blockAdd
        (blockAdd st.2 (widthsSum ls tr.1) (2 * ls.getD tr.1 0 + 1)
          (widthsSum ls tr.2.1) (2 * ls.getD tr.2.1 0 + 1)
          (contSingle wig (ls.getD tr.1 0) (ls.getD tr.2.1 0) tr.2.2 pred st.1))
        (widthsSum ls tr.2.1) (2 * ls.getD tr.2.1 0 + 1)
        (widthsSum ls tr.1) (2 * ls.getD tr.1 0 + 1)
        (fun p q => contSingle wig (ls.getD tr.1 0) (ls.getD tr.2.1 0) tr.2.2 pred st.1 q p))

/-- One iteration of the triple loop of PAO_model.build_aux_H_batch: the
same block writes as stepH, performed for every sample of the batch. -/
def stepHB (ls : List ℕ) (wig : ℕ → ℕ → ℕ → ℕ → ℕ → ℕ → ℝ) (predB : ℕ → ℕ → ℝ)
    (st : ℕ × (ℕ → ℕ → ℕ → ℝ)) (tr : ℕ × ℕ × ℕ) : ℕ × (ℕ → ℕ → ℕ → ℝ) :=
  (st.1 + (2 * tr.2.2 + 1),
    if tr.1 = tr.2.1 then
      blockAddB st.2 (widthsSum ls tr.1) (2 * ls.getD tr.1 0 + 1)
        (widthsSum ls tr.2.1) (2 * ls.getD tr.2.1 0 + 1)
        (contBatch wig (ls.getD tr.1 0) (ls.getD tr.2.1 0) tr.2.2 predB st.1)
    else
      blockAddB
        (blockAddB st.2 (widthsSum ls tr.1) (2 * ls.getD tr.1 0 + 1)
          (widthsSum ls tr.2.1) (2 * ls.getD tr.2.1 0 + 1)
          (contBatch wig (ls.getD tr.1 0) (ls.getD tr.2.1 0) tr.2.2 predB st.1))
        (widthsSum ls tr.2.1) (2 * ls.getD tr.2.1 0 + 1)
        (widthsSum ls tr.1) (2 * ls.getD tr.1 0 + 1)
        (fun s p q => contBatch wig (ls.getD tr.1 0) (ls.getD tr.2.1 0) tr.2.2 predB st.1 s q p))

/-- PAO_model.build_aux_H: fold the block updates over the coupling-table
enumeration, starting from the zero matrix and prediction offset 0. -/
def build_aux_H (ls : List ℕ) (wig : ℕ → ℕ → ℕ → ℕ → ℕ → ℕ → ℝ)
    (pred : ℕ → ℝ) : ℕ → ℕ → ℝ :=
  ((pairTrips ls).foldl (stepH ls wig pred) (0, fun _ _ => 0)).2

/-- PAO_model.build_aux_H_batch: the batched fold.  The batch-size argument
of the source only fixes the allocation of the zero tensor; the embedding
indexes samples by an unbounded natural, so it is implicit. -/
def build_aux_H_batch (ls : List ℕ) (wig : ℕ → ℕ → ℕ → ℕ → ℕ → ℕ → ℝ)
    (predB : ℕ → ℕ → ℝ) : ℕ → ℕ → ℕ → ℝ :=
  ((pairTrips ls).foldl (stepHB ls wig predB) (0, fun _ _ _ => 0)).2

/-- The eigenvector selection of PAO_model.forward:
pao_vectors = transpose(Q[:, :, :pao_basis_size], 1, 2) keeps, for each
sample, the first m columns of the eigenvector matrix Q returned by
torch.linalg.eigh (whose eigenvalues are in ascending order) and
transposes them to rows.  Entries outside the m x n result shape are 0. -/
def paoSelect (m : ℕ) (Q : ℕ → ℕ → ℝ) : ℕ → ℕ → ℝ :=
  fun r c => if r < m then Q c r else 0

/-- Modelled from the spec: the Basis Extractor selection in the spec's
words, for the refinement comparison with paoSelect: with eigenvalues in
ascending order, the m eigenvectors associated with the largest
eigenvalues are the last m of the n columns; transpose them to rows. -/
def paoSelectLargestSpec (m n : ℕ) (Q : ℕ → ℕ → ℝ) : ℕ → ℕ → ℝ :=
  fun r c => if r < m then Q c (n - m + r) else 0

/-- loss_function_ortho_projector: mean squared entry-wise difference of
the two projector matrices pred.T @ pred and label.T @ label (stated over
any field so that the definition stays executable at rational inputs). -/
def loss_function_ortho_projector {K : Type} [Field K] {m n : ℕ}
    (pred label : Matrix (Fin m) (Fin n) K) : K :=
  (∑ i, ∑ j, ((pred.transpose * pred - label.transpose * label) i j) ^ 2) /
    ((n : K) * n)

/-- The decimal serialization of one Xblock entry in write_pao_file: the
Python fixed-point format with six digits after the decimal point rounds
the value to the nearest multiple of 10^-6. -/
def fmtFixed6 (x : ℚ) : ℚ :=
  ((round (x * 1000000) : ℤ) : ℚ) / 1000000

/-- The Xblock serialization of write_pao_file: flatten the m x n block
row-major and format each entry with six decimal places. -/
def write_xblock (m n : ℕ) (X : ℕ → ℕ → ℚ) : List ℚ :=
  (List.range m).flatMap (fun r => (List.range n).map (fun c => fmtFixed6 (X r c)))

/-- The Xblock deserialization of parse_pao_file: read the flat list of
numbers back and reshape it to (pao_basis_size, prim_basis_size)
row-major. -/
def parse_xblock (n : ℕ) (xs : List ℚ) : ℕ → ℕ → ℚ :=
  fun r c => xs.getD (r * n + c) 0

/-- Running cumulative sums, as torch.cumsum produces them (the rh-index
arrays of PAO_model.__init__). -/
def cumsum (xs : List ℕ) : List ℕ :=
  (List.range xs.length).map (fun i => (xs.take (i + 1)).sum)

/-- The integer-indexing state assembled by PAO_model.__init__ (the float
network weights play no role in the claims about construction). -/
structure ModelIdx where
  ls : List ℕ
  prim_basis_size : ℕ
  pao_basis_size : ℕ
  idx_in : List ℕ
  idx_out : List ℕ
  aux_H_idx_in : List ℕ
  aux_H_idx_out : List ℕ

/-- PAO_model.__init__ as far as it can fail: the constructor performs no
validation of its own; the only failing computation is
prim_basis_spec.lmax (the e3nn Irreps lmax raises ValueError on an empty
channel list, before the networks and index arrays are built).  The stated
prim_basis_size and pao_basis_size are stored without being compared to
the dimension implied by the channel list ls. -/
def PAO_model_init (ls : List ℕ) (prim_basis_size pao_basis_size : ℕ) :
    Except String ModelIdx :=
  if ls.isEmpty then Except.error "lmax of empty basis" else
    Except.ok
      { ls := ls
        prim_basis_size := prim_basis_size
        pao_basis_size := pao_basis_size
        idx_out := cumsum ((pairTrips ls).map (fun tr => 2 * tr.2.2 + 1))
        idx_in := List.zipWith (fun o w => o - w)
          (cumsum ((pairTrips ls).map (fun tr => 2 * tr.2.2 + 1)))
          ((pairTrips ls).map (fun tr => 2 * tr.2.2 + 1))
        aux_H_idx_out := cumsum (ls.map (fun l => 2 * l + 1))
        aux_H_idx_in := List.zipWith (fun o w => o - w)
          (cumsum (ls.map (fun l => 2 * l + 1)))
          (ls.map (fun l => 2 * l + 1)) }

/-- Whether a constructor outcome is a success. -/
def exceptOk {ε α : Type} (e : Except ε α) : Bool :=
  match e with
  | Except.ok _ => true
  | Except.error _ => false

/-- The neighbor index list of pao_objects_from_file for center atom i of
n atoms: idxs = list(range(n)); idxs.pop(i). -/
def neighbor_idxs (n i : ℕ) : List ℕ :=
  (List.range n).eraseIdx i

/-- The per-atom neighbor data of pao_objects_from_file: fancy indexing
coords[idxs] (and likewise f_in[idxs]) maps the per-atom data over the
neighbor index list. -/
def neighbor_coords {α : Type} (coords : ℕ → α) (n i : ℕ) : List α :=
  (neighbor_idxs n i).map coords

/-- Concrete symmetric auxiliary matrix diag(0, 1) used to exhibit the
eigenvector selection of PAO_model.forward on an explicit
eigendecomposition. -/
def auxA : ℕ → ℕ → ℝ :=
  fun i j => if i = 1 ∧ j = 1 then 1 else 0

/-- The identity eigenvector matrix: column j is an eigenvector of auxA
for the eigenvalue eighLam j, with eigenvalues in ascending order exactly
as torch.linalg.eigh returns them for diag(0, 1). -/
def eighQ : ℕ → ℕ → ℝ :=
  fun i j => if i = j then 1 else 0

/-- The ascending eigenvalues (0, 1) of auxA. -/
def eighLam : ℕ → ℝ :=
  fun j => if j = 0 then 0 else 1

/-- Concrete raw coupling-tensor table with every entry 1, used as witness
input for the wigner_dict rescaling claim. -/
def wigOne : ℕ → ℕ → ℕ → ℕ → ℕ → ℕ → ℝ :=
  fun _ _ _ _ _ _ => 1

/-- Concrete raw coupling-tensor table with every entry 0: its central
elements are all zero, exercising the retention of triples whose central
element vanishes. -/
def wigZero : ℕ → ℕ → ℕ → ℕ → ℕ → ℕ → ℝ :=
  fun _ _ _ _ _ _ => 0

/-- The tensor stored in wigner_dict [0] wigOne under the key (0, 0, 0). -/
def wigOneStored : ℕ → ℕ → ℕ → ℝ :=
  fun p q k => rawCentral wigOne 0 0 0 * wigOne 0 0 0 p q k

end PaoEquiMl

namespace PaoEquiMl

lemma admissible_iff (a b c : ℕ) :
    admissible a b c = true ↔
      (b - a ≤ c ∧ a - b ≤ c ∧ c ≤ a + b) ∧
      ((a % 2 = b % 2 ∧ c % 2 = 0) ∨ (¬ a % 2 = b % 2 ∧ c % 2 = 1)) := by
  simp only [admissible, Bool.or_eq_true, Bool.and_eq_true, decide_eq_true_eq,
    beq_iff_eq, bne_iff_ne, ne_eq]
  tauto

lemma mem_pairTrips (ls : List ℕ) (i j c : ℕ) :
    (i, j, c) ∈ pairTrips ls ↔
      i ≤ j ∧ j < ls.length ∧ admissible (ls.getD i 0) (ls.getD j 0) c = true := by
  unfold pairTrips tripsFor
  simp only [List.mem_flatMap, List.mem_map, List.mem_filter, List.mem_range]
  constructor
  · rintro ⟨a, ha, jd, hjd, cc, ⟨hcc, hadm⟩, heq⟩
    obtain ⟨h1, h2, h3⟩ : a = i ∧ a + jd = j ∧ cc = c := by
      simpa [Prod.ext_iff] using heq
    subst h1; subst h3
    subst h2
    exact ⟨by omega, by omega, hadm⟩
  · rintro ⟨hij, hj, hadm⟩
    have hji : i + (j - i) = j := by omega
    have hadm2 := (admissible_iff _ _ _).mp hadm
    refine ⟨i, by omega, j - i, by omega, c, ⟨?_, ?_⟩, ?_⟩
    · rw [hji]; omega
    · rw [hji]; exact hadm
    · rw [hji]

lemma widthsSum_succ (ls : List ℕ) (i : ℕ) (h : i < ls.length) :
    widthsSum ls (i + 1) = widthsSum ls i + (2 * ls.getD i 0 + 1) := by
  have h' : i < (ls.map (fun l => 2 * l + 1)).length := by simpa using h
  unfold widthsSum
  rw [List.map_take, List.map_take, List.take_succ, List.getElem?_eq_getElem h',
    List.getElem_map, List.getD_eq_getElem ls 0 h]
  simp

lemma widthsSum_mono (ls : List ℕ) (m n : ℕ) (h : m ≤ n) :
    widthsSum ls m ≤ widthsSum ls n := by
  unfold widthsSum
  obtain ⟨d, rfl⟩ : ∃ d, n = m + d := ⟨n - m, by omega⟩
  rw [List.take_add, List.map_append, List.sum_append]
  omega

lemma block_disjoint (ls : List ℕ) (i j : ℕ) (hij : i < j) (hj : j < ls.length) :
    widthsSum ls i + (2 * ls.getD i 0 + 1) ≤ widthsSum ls j := by
  have h1 := widthsSum_succ ls i (by omega)
  have h2 := widthsSum_mono ls (i + 1) j (by omega)
  omega

lemma blockAddB_diag_symm (A : ℕ → ℕ → ℕ → ℝ) (r0 w : ℕ) (C : ℕ → ℕ → ℕ → ℝ)
    (hA : ∀ s r c, A s r c = A s c r) (hC : ∀ s p q, C s p q = C s q p) :
    ∀ s r c, blockAddB A r0 w r0 w C s r c = blockAddB A r0 w r0 w C s c r := by
  intro s r c
  unfold blockAddB
  split_ifs with h1 h2 h3
  · rw [hA s r c, hC s (r - r0) (c - r0)]
  · omega
  · omega
  · exact hA s r c

lemma blockAddB_pair_symm (A : ℕ → ℕ → ℕ → ℝ) (r0 w1 c0 w2 : ℕ) (C : ℕ → ℕ → ℕ → ℝ)
    (hA : ∀ s r c, A s r c = A s c r) (hdis : r0 + w1 ≤ c0) :
    ∀ s r c,
      blockAddB (blockAddB A r0 w1 c0 w2 C) c0 w2 r0 w1 (fun s p q => C s q p) s r c =
      blockAddB (blockAddB A r0 w1 c0 w2 C) c0 w2 r0 w1 (fun s p q => C s q p) s c r := by
  intro s r c
  unfold blockAddB
  dsimp only
  split_ifs <;> first | rfl | omega | rw [hA s r c]

lemma stepHB_symm (ls : List ℕ) (wig : ℕ → ℕ → ℕ → ℕ → ℕ → ℕ → ℝ)
    (predB : ℕ → ℕ → ℝ)
    (hsym : ∀ a c, c % 2 = 0 → ∀ p q k, wig a a c p q k = wig a a c q p k)
    (i j lc : ℕ) (hij : i ≤ j) (hj : j < ls.length)
    (hadm : admissible (ls.getD i 0) (ls.getD j 0) lc = true)
    (st : ℕ × (ℕ → ℕ → ℕ → ℝ)) (hA : ∀ s r c, st.2 s r c = st.2 s c r) :
    ∀ s r c, (stepHB ls wig predB st (i, j, lc)).2 s r c =
      (stepHB ls wig predB st (i, j, lc)).2 s c r := by
  by_cases hd : i = j
  · subst hd
    have hpar : lc % 2 = 0 := by
      have := (admissible_iff (ls.getD i 0) (ls.getD i 0) lc).mp hadm
      tauto
    have hC : ∀ s p q, contBatch wig (ls.getD i 0) (ls.getD i 0) lc predB st.1 s p q =
        contBatch wig (ls.getD i 0) (ls.getD i 0) lc predB st.1 s q p := by
      intro s p q
      unfold contBatch
      exact Finset.sum_congr rfl (fun k _ => by rw [hsym (ls.getD i 0) lc hpar p q k])
    intro s r c
    simp only [stepHB, if_true]
    exact blockAddB_diag_symm st.2 (widthsSum ls i) (2 * ls.getD i 0 + 1) _ hA hC s r c
  · have hdis : widthsSum ls i + (2 * ls.getD i 0 + 1) ≤ widthsSum ls j :=
      block_disjoint ls i j (by omega) hj
    intro s r c
    simp only [stepHB, if_neg hd]
    exact blockAddB_pair_symm st.2 (widthsSum ls i) (2 * ls.getD i 0 + 1)
      (widthsSum ls j) (2 * ls.getD j 0 + 1) _ hA hdis s r c

lemma foldHB_symm (ls : List ℕ) (wig : ℕ → ℕ → ℕ → ℕ → ℕ → ℕ → ℝ)
    (predB : ℕ → ℕ → ℝ)
    (hsym : ∀ a c, c % 2 = 0 → ∀ p q k, wig a a c p q k = wig a a c q p k)
    (trips : List (ℕ × ℕ × ℕ))
    (hwf : ∀ tr ∈ trips, tr.1 ≤ tr.2.1 ∧ tr.2.1 < ls.length ∧
      admissible (ls.getD tr.1 0) (ls.getD tr.2.1 0) tr.2.2 = true) :
    ∀ st : ℕ × (ℕ → ℕ → ℕ → ℝ), (∀ s r c, st.2 s r c = st.2 s c r) →
    ∀ s r c, ((trips.foldl (stepHB ls wig predB) st).2) s r c =
      ((trips.foldl (stepHB ls wig predB) st).2) s c r := by
  induction trips with
  | nil => intro st hst; exact hst
  | cons hd tl ih =>
    intro st hst
    obtain ⟨i, j, lc⟩ := hd
    obtain ⟨hij, hj, hadm⟩ := hwf (i, j, lc) (List.mem_cons_self _ _)
    exact ih (fun tr htr => hwf tr (List.mem_cons_of_mem _ htr))
      (stepHB ls wig predB st (i, j, lc))
      (stepHB_symm ls wig predB hsym i j lc hij hj hadm st hst)

lemma pairTrips_wf (ls : List ℕ) :
    ∀ tr ∈ pairTrips ls, tr.1 ≤ tr.2.1 ∧ tr.2.1 < ls.length ∧
      admissible (ls.getD tr.1 0) (ls.getD tr.2.1 0) tr.2.2 = true := by
  rintro ⟨i, j, c⟩ htr
  exact (mem_pairTrips ls i j c).mp htr

lemma stepH_eq_stepHB (ls : List ℕ) (wig : ℕ → ℕ → ℕ → ℕ → ℕ → ℕ → ℝ)
    (predB : ℕ → ℕ → ℝ) (s : ℕ) (tr : ℕ × ℕ × ℕ)
    (st : ℕ × (ℕ → ℕ → ℝ)) (stB : ℕ × (ℕ → ℕ → ℕ → ℝ))
    (hoff : st.1 = stB.1) (hM : ∀ r c, st.2 r c = stB.2 s r c) :
    (stepH ls wig (fun k => predB s k) st tr).1 = (stepHB ls wig predB stB tr).1 ∧
    ∀ r c, (stepH ls wig (fun k => predB s k) st tr).2 r c =
      (stepHB ls wig predB stB tr).2 s r c := by
  have hcont : ∀ a b c p q, contSingle wig a b c (fun k => predB s k) st.1 p q =
      contBatch wig a b c predB stB.1 s p q := by
    intro a b c p q
    unfold contSingle contBatch
    rw [hoff]
  constructor
  · simp only [stepH, stepHB, hoff]
  · intro r c
    simp only [stepH, stepHB]
    by_cases hd : tr.1 = tr.2.1
    · rw [if_pos hd, if_pos hd]
      unfold blockAdd blockAddB
      split_ifs with h
      · rw [hM, hcont]
      · exact hM r c
    · rw [if_neg hd, if_neg hd]
      unfold blockAdd blockAddB
      dsimp only
      split_ifs with h1 h2 h2
      · rw [hM, hcont, hcont]
      · rw [hM, hcont]
      · rw [hM, hcont]
      · exact hM r c

lemma foldH_eq_foldHB (ls : List ℕ) (wig : ℕ → ℕ → ℕ → ℕ → ℕ → ℕ → ℝ)
    (predB : ℕ → ℕ → ℝ) (s : ℕ) (trips : List (ℕ × ℕ × ℕ)) :
    ∀ (st : ℕ × (ℕ → ℕ → ℝ)) (stB : ℕ × (ℕ → ℕ → ℕ → ℝ)),
      st.1 = stB.1 → (∀ r c, st.2 r c = stB.2 s r c) →
      (trips.foldl (stepH ls wig (fun k => predB s k)) st).1 =
        (trips.foldl (stepHB ls wig predB) stB).1 ∧
      ∀ r c, (trips.foldl (stepH ls wig (fun k => predB s k)) st).2 r c =
        (trips.foldl (stepHB ls wig predB) stB).2 s r c := by
  induction trips with
  | nil => intro st stB hoff hM; exact ⟨hoff, hM⟩
  | cons hd tl ih =>
    intro st stB hoff hM
    obtain ⟨h1, h2⟩ := stepH_eq_stepHB ls wig predB s hd st stB hoff hM
    exact ih _ _ h1 h2


lemma mem_tripleValues (ls : List ℕ) (a b c : ℕ) :
    (a, b, c) ∈ tripleValues ls ↔
      ∃ i j, i ≤ j ∧ j < ls.length ∧ ls.getD i 0 = a ∧ ls.getD j 0 = b ∧
        admissible a b c = true := by
  unfold tripleValues
  rw [List.mem_map]
  constructor
  · rintro ⟨⟨i, j, cc⟩, htr, heq⟩
    obtain ⟨h1, h2, h3⟩ : ls.getD i 0 = a ∧ ls.getD j 0 = b ∧ cc = c := by
      simpa [Prod.ext_iff] using heq
    obtain ⟨hij, hj, hadm⟩ := (mem_pairTrips ls i j cc).mp htr
    subst h3
    exact ⟨i, j, hij, hj, h1, h2, by rwa [h1, h2] at hadm⟩
  · rintro ⟨i, j, hij, hj, h1, h2, hadm⟩
    refine ⟨(i, j, c), (mem_pairTrips ls i j c).mpr ⟨hij, hj, by rwa [h1, h2]⟩, ?_⟩
    show (ls.getD i 0, ls.getD j 0, c) = (a, b, c)
    rw [h1, h2]

lemma getD_map_range {α : Type} (d : α) (g : ℕ → α) (n c : ℕ) (hc : c < n) :
    ((List.range n).map g).getD c d = g c := by
  have h1 : c < ((List.range n).map g).length := by simpa using hc
  rw [List.getD_eq_getElem _ _ h1, List.getElem_map, List.getElem_range]

lemma getD_grid {α : Type} (d : α) (n : ℕ) :
    ∀ (r m c : ℕ) (f : ℕ → ℕ → α), r < m → c < n →
      ((List.range m).flatMap
        (fun i => (List.range n).map (fun j => f i j))).getD (r * n + c) d = f r c := by
  intro r
  induction r with
  | zero =>
    intro m c f hr hc
    obtain ⟨mm, rfl⟩ : ∃ mm, m = mm + 1 := ⟨m - 1, by omega⟩
    rw [List.range_succ_eq_map]
    simp only [List.flatMap_cons, Nat.zero_mul, Nat.zero_add]
    rw [List.getD_append _ _ _ _ (by simpa using hc)]
    exact getD_map_range d (fun j => f 0 j) n c hc
  | succ r ih =>
    intro m c f hr hc
    obtain ⟨mm, rfl⟩ : ∃ mm, m = mm + 1 := ⟨m - 1, by omega⟩
    rw [List.range_succ_eq_map]
    simp only [List.flatMap_cons, List.flatMap_map, Function.comp_def]
    rw [List.getD_append_right _ _ _ _ (by simp; nlinarith)]
    have hidx : (r + 1) * n + c - ((List.range n).map (fun j => f 0 j)).length =
        r * n + c := by
      simp only [List.length_map, List.length_range]
      rw [Nat.succ_mul]
      omega
    rw [hidx]
    exact ih mm c (fun i j => f (i + 1) j) (by omega) hc

lemma mem_neighbor_idxs (n i j : ℕ) :
    j ∈ neighbor_idxs n i ↔ j < n ∧ j ≠ i := by
  unfold neighbor_idxs
  rw [List.mem_eraseIdx_iff_getElem]
  constructor
  · rintro ⟨k, hk, hki, hkj⟩
    rw [List.getElem_range] at hkj
    subst hkj
    exact ⟨by simpa using hk, hki⟩
  · rintro ⟨hj, hji⟩
    exact ⟨j, by simpa using hj, hji, by simp⟩

lemma fmtFixed6_intMul (z : ℤ) :
    fmtFixed6 ((z : ℚ) / 1000000) = (z : ℚ) / 1000000 := by
  unfold fmtFixed6
  rw [div_mul_cancel₀ _ (by norm_num : (1000000 : ℚ) ≠ 0), round_intCast]

lemma fmtFixed6_close (x : ℚ) : |fmtFixed6 x - x| ≤ 1 / 2000000 := by
  have h := abs_sub_round (x * 1000000)
  rw [abs_sub_comm] at h
  have heq : fmtFixed6 x - x =
      (((round (x * 1000000) : ℤ) : ℚ) - x * 1000000) / 1000000 := by
    unfold fmtFixed6
    ring
  rw [heq, abs_div, abs_of_pos (show (0 : ℚ) < 1000000 by norm_num)]
  calc |((round (x * 1000000) : ℤ) : ℚ) - x * 1000000| / 1000000
      ≤ (1 / 2) / 1000000 := by
        exact (div_le_div_iff_of_pos_right (by norm_num)).mpr h
    _ = 1 / 2000000 := by norm_num


/-- C1 (counterexample): the selection of PAO_model.forward is not the
spec's selection of the eigenvectors of largest eigenvalue.  Witnessed on
an explicit eigendecomposition: eighQ is an orthonormal eigenbasis of the
symmetric matrix auxA = diag(0, 1) with strictly ascending eigenvalues
eighLam = (0, 1), exactly the situation after torch.linalg.eigh; with
pao_basis_size m = 1 and primitive dimension n = 2, the code's selection
paoSelect returns the eigenvector of the smallest eigenvalue while the
spec asks for the eigenvector of the largest one, and the two differ. -/
theorem forward_not_largest_eigenvectors :
    paoSelect 1 eighQ 0 0 ≠ paoSelectLargestSpec 1 2 eighQ 0 0 ∧
    eighLam 0 < eighLam 1 ∧
    (∑ k ∈ Finset.range 2, auxA 0 k * eighQ k 0) = eighLam 0 * eighQ 0 0 ∧
    (∑ k ∈ Finset.range 2, auxA 1 k * eighQ k 0) = eighLam 0 * eighQ 1 0 ∧
    (∑ k ∈ Finset.range 2, auxA 0 k * eighQ k 1) = eighLam 1 * eighQ 0 1 ∧
    (∑ k ∈ Finset.range 2, auxA 1 k * eighQ k 1) = eighLam 1 * eighQ 1 1 := by
  refine ⟨?_, ?_, ?_, ?_, ?_, ?_⟩ <;>
    norm_num [paoSelect, paoSelectLargestSpec, auxA, eighQ, eighLam,
      Finset.sum_range_succ]

/-- C1 (amended): after torch.linalg.eigh, whose eigenvalues lam are in
ascending order and whose eigenvector columns Q satisfy A Q = Q diag(lam),
PAO_model.forward returns as the predicted basis the m = pao_basis_size
eigenvectors associated with the SMALLEST eigenvalues (the first m
columns), transposed to rows: row r of the result is an eigenvector of A
with eigenvalue lam r, and every selected eigenvalue is at most every
non-selected one. -/
theorem forward_selects_smallest_eigenvectors (n m : ℕ) (A Q : ℕ → ℕ → ℝ)
    (lam : ℕ → ℝ)
    (heig : ∀ j, j < n → ∀ i, i < n →
      (∑ k ∈ Finset.range n, A i k * Q k j) = lam j * Q i j)
    (hasc : ∀ j k, j ≤ k → lam j ≤ lam k)
    (hmn : m ≤ n) (r : ℕ) (hr : r < m) (i j : ℕ) (hi : i < n) (hj : m ≤ j) :
    (∑ k ∈ Finset.range n, A i k * paoSelect m Q r k) =
      lam r * paoSelect m Q r i ∧
    lam r ≤ lam j := by
  have hsel : ∀ k, paoSelect m Q r k = Q k r := fun k => if_pos hr
  constructor
  · calc (∑ k ∈ Finset.range n, A i k * paoSelect m Q r k)
        = ∑ k ∈ Finset.range n, A i k * Q k r :=
          Finset.sum_congr rfl (fun k _ => by rw [hsel k])
      _ = lam r * Q i r := heig r (lt_of_lt_of_le hr hmn) i hi
      _ = lam r * paoSelect m Q r i := by rw [hsel i]
  · exact hasc r j (by omega)

/-- Witness for forward_selects_smallest_eigenvectors at the concrete
eigendecomposition auxA = diag(0, 1), Q = identity, lam = (0, 1),
m = 1, n = 2, r = 0, i = 0, j = 1. -/
theorem forward_selects_smallest_eigenvectors_witness :
    (∑ k ∈ Finset.range 2, auxA 0 k * paoSelect 1 eighQ 0 k) =
      eighLam 0 * paoSelect 1 eighQ 0 0 ∧
    eighLam 0 ≤ eighLam 1 :=
  forward_selects_smallest_eigenvectors 2 1 auxA eighQ eighLam
    (by
      intro j hj i hi
      interval_cases j <;> interval_cases i <;>
        norm_num [auxA, eighQ, eighLam, Finset.sum_range_succ])
    (by
      intro j k h
      unfold eighLam
      split_ifs with h1 h2
      · norm_num
      · norm_num
      · exfalso; omega
      · norm_num)
    (by norm_num) 0 (by norm_num) 0 1 (by norm_num) (by norm_num)

/-- C3: for every prediction batch, the matrix assembled by
PAO_model.build_aux_H_batch is exactly symmetric in every sample, the
diagonal blocks included.  The mirrored blocks are written explicitly by
the assembler; the diagonal blocks inherit their symmetry from the
exchange symmetry of the stored coupling tensors with l1 = l2 (hypothesis
hsym, which holds for the e3nn wigner_3j tables: exchanging the first two
indices of wigner_3j(l, l, lc) multiplies it by (-1)^(2l+lc), and the
parity rule admits only even lc on diagonal pairs). -/
theorem build_aux_H_batch_exactly_symmetric (ls : List ℕ)
    (wig : ℕ → ℕ → ℕ → ℕ → ℕ → ℕ → ℝ) (predB : ℕ → ℕ → ℝ)
    (hsym : ∀ a c, c % 2 = 0 → ∀ p q k, wig a a c p q k = wig a a c q p k)
    (s r c : ℕ) :
    build_aux_H_batch ls wig predB s r c = build_aux_H_batch ls wig predB s c r :=
  foldHB_symm ls wig predB hsym (pairTrips ls) (pairTrips_wf ls)
    (0, fun _ _ _ => 0) (fun _ _ _ => rfl) s r c

/-- Witness for build_aux_H_batch_exactly_symmetric on the two-shell basis
ls = [0, 1] with the all-ones coupling table and all-ones predictions. -/
theorem build_aux_H_batch_exactly_symmetric_witness :
    build_aux_H_batch [0, 1] wigOne (fun _ _ => 1) 0 0 2 =
      build_aux_H_batch [0, 1] wigOne (fun _ _ => 1) 0 2 0 :=
  build_aux_H_batch_exactly_symmetric [0, 1] wigOne (fun _ _ => 1)
    (fun _ _ _ _ _ _ => rfl) 0 0 2

/-- C4: the coupling table built in PAO_model.__init__ contains exactly
the triples (l_i, l_j, l_c) coming from a shell pair with positions
i <= j in the channel list, with |l_i - l_j| <= l_c <= l_i + l_j (the two
truncated natural subtractions express the absolute difference), and the
parity rule: l_c even when l_i and l_j have equal parity, odd when their
parities differ. -/
theorem coupling_table_mem_iff (ls : List ℕ) (a b c : ℕ) :
    (a, b, c) ∈ tripleValues ls ↔
      ∃ i j, i ≤ j ∧ j < ls.length ∧ ls.getD i 0 = a ∧ ls.getD j 0 = b ∧
        (b - a ≤ c ∧ a - b ≤ c ∧ c ≤ a + b) ∧
        ((a % 2 = b % 2 ∧ c % 2 = 0) ∨ (¬ a % 2 = b % 2 ∧ c % 2 = 1)) := by
  rw [mem_tripleValues]
  constructor
  · rintro ⟨i, j, hij, hj, h1, h2, hadm⟩
    exact ⟨i, j, hij, hj, h1, h2, ((admissible_iff a b c).mp hadm).1,
      ((admissible_iff a b c).mp hadm).2⟩
  · rintro ⟨i, j, hij, hj, h1, h2, htri, hpar⟩
    exact ⟨i, j, hij, hj, h1, h2, (admissible_iff a b c).mpr ⟨htri, hpar⟩⟩

/-- C5: every tensor stored in wigner_dict is the raw coupling tensor
rescaled (multiplied) by its own central element
wigner_m[(2l1+1)//2, (2l2+1)//2, (2lc+1)//2], and a triple stored for one
raw table is stored for every other raw table as well — in particular it
is retained when the central element is zero, since membership of the key
does not depend on the tensor values at all. -/
theorem wigner_dict_central_rescaled (ls : List ℕ)
    (wig wigAlt : ℕ → ℕ → ℕ → ℕ → ℕ → ℕ → ℝ) (a b c p q k : ℕ)
    (W : ℕ → ℕ → ℕ → ℝ) (hmem : ((a, b, c), W) ∈ wigner_dict ls wig) :
    W p q k = rawCentral wig a b c * wig a b c p q k ∧
    ((a, b, c), fun p q k => rawCentral wigAlt a b c * wigAlt a b c p q k) ∈
      wigner_dict ls wigAlt := by
  unfold wigner_dict at hmem ⊢
  rw [List.mem_map] at hmem
  obtain ⟨tr, htr, heq⟩ := hmem
  have h1 : ls.getD tr.1 0 = a := congrArg (fun x => x.1.1) heq
  have h2 : ls.getD tr.2.1 0 = b := congrArg (fun x => x.1.2.1) heq
  have h3 : tr.2.2 = c := congrArg (fun x => x.1.2.2) heq
  have hW : (fun p q k =>
      rawCentral wig (ls.getD tr.1 0) (ls.getD tr.2.1 0) tr.2.2 *
        wig (ls.getD tr.1 0) (ls.getD tr.2.1 0) tr.2.2 p q k) = W :=
    congrArg Prod.snd heq
  constructor
  · rw [← hW]
    dsimp only
    rw [h1, h2, h3]
  · rw [List.mem_map]
    refine ⟨tr, htr, ?_⟩
    rw [h1, h2, h3]

/-- Witness for wigner_dict_central_rescaled: the single triple (0, 0, 0)
of the basis ls = [0], with the all-ones raw table for the hypothesis and
the all-zero raw table (whose central elements all vanish) for the
retention conjunct. -/
theorem wigner_dict_central_rescaled_witness :
    wigOneStored 0 0 0 = rawCentral wigOne 0 0 0 * wigOne 0 0 0 0 0 0 ∧
    ((0, 0, 0), fun p q k => rawCentral wigZero 0 0 0 * wigZero 0 0 0 p q k) ∈
      wigner_dict [0] wigZero :=
  wigner_dict_central_rescaled [0] wigOne wigZero 0 0 0 0 0 0 wigOneStored
    (List.Mem.head _)

/-- C6: the projector loss vanishes at equal arguments and is invariant
under any orthogonal rotation of the label within its row space:
loss_function_ortho_projector P P = 0, and for any orthogonal R (that is,
R.T @ R = 1) also loss_function_ortho_projector P (R @ P) = 0, in exact
arithmetic. -/
theorem loss_ortho_projector_rotation_invariant (m n : ℕ)
    (P : Matrix (Fin m) (Fin n) ℝ) (R : Matrix (Fin m) (Fin m) ℝ)
    (hR : R.transpose * R = 1) :
    loss_function_ortho_projector P P = 0 ∧
    loss_function_ortho_projector P (R * P) = 0 := by
  have hproj : (R * P).transpose * (R * P) = P.transpose * P := by
    rw [Matrix.transpose_mul, Matrix.mul_assoc, ← Matrix.mul_assoc R.transpose R P,
      hR, Matrix.one_mul]
  have hzero : loss_function_ortho_projector P P = 0 := by
    simp [loss_function_ortho_projector]
  refine ⟨hzero, ?_⟩
  unfold loss_function_ortho_projector at hzero ⊢
  rw [hproj]
  exact hzero

/-- Witness for loss_ortho_projector_rotation_invariant with the 1 x 1
identity matrices. -/
theorem loss_ortho_projector_rotation_invariant_witness :
    loss_function_ortho_projector (1 : Matrix (Fin 1) (Fin 1) ℝ) 1 = 0 ∧
    loss_function_ortho_projector (1 : Matrix (Fin 1) (Fin 1) ℝ)
      ((1 : Matrix (Fin 1) (Fin 1) ℝ) * 1) = 0 :=
  loss_ortho_projector_rotation_invariant 1 1 1 1 (by simp)


/-- C7 (counterexample): a basis specification whose stated primitive size
(7) disagrees with the dimension implied by the declared channel list
([0], dimension 1) and whose stated reduced size (5) exceeds that
dimension is accepted by PAO_model.__init__: construction succeeds, so the
inconsistent specification reaches the forward pass unchecked. -/
theorem PAO_model_init_accepts_inconsistent_sizes :
    exceptOk (PAO_model_init [0] 7 5) = true ∧
    ([0].map (fun l => 2 * l + 1)).sum = 1 ∧ (7 : ℕ) ≠ 1 ∧ ¬ (5 : ℕ) ≤ 1 := by
  refine ⟨by decide, by decide, by decide, by decide⟩

/-- C7 (amended): construction of PAO_model fails exactly on an empty
channel list (the lmax computation of the e3nn Irreps raises before
anything else is built); no dimension-consistency check between the stated
primitive/reduced sizes and the declared channel blocks is performed at
construction time. -/
theorem PAO_model_init_ok_iff_nonempty (ls : List ℕ) (p q : ℕ) :
    exceptOk (PAO_model_init ls p q) = true ↔ ls ≠ [] := by
  cases ls with
  | nil => simp [PAO_model_init, exceptOk]
  | cons a t => simp [PAO_model_init, exceptOk]

/-- C8 (counterexample): the Xblock round trip is not the identity up to
floating-point rounding.  The entry 1/1048576 = 2^-20 is exactly
representable in binary floating point, so serializing it at full
precision would reproduce it; but write_pao_file formats entries with the
six-decimal fixed-point format, so the round trip returns 1/1000000
instead, an error above 10^-8 (four hundred times double-precision
rounding at this magnitude). -/
theorem xblock_roundtrip_loses_precision :
    parse_xblock 1 (write_xblock 1 1 (fun _ _ => (1 : ℚ) / 1048576)) 0 0 =
      1 / 1000000 ∧
    ((1 : ℚ) / 1000000) ≠ (1 : ℚ) / 1048576 ∧
    |(1 : ℚ) / 1000000 - 1 / 1048576| > 1 / 100000000 := by
  have hw : parse_xblock 1 (write_xblock 1 1 (fun _ _ => (1 : ℚ) / 1048576)) 0 0 =
      fmtFixed6 ((1 : ℚ) / 1048576) := by
    simp [parse_xblock, write_xblock, show List.range 1 = [0] from rfl]
  refine ⟨?_, by norm_num, ?_⟩
  · rw [hw]
    norm_num [fmtFixed6, round_eq]
  · rw [abs_of_pos (by norm_num)]
    norm_num

/-- C8 (amended): writing an Xblock with write_pao_file and re-parsing it
with parse_pao_file reproduces each entry rounded to the nearest multiple
of 10^-6 (the six-decimal fixed-point format), preserving the row-major
(m x n) layout; entries that are integer multiples of 10^-6 round-trip
exactly, and every reproduced entry is within 5 * 10^-7 of the
original. -/
theorem xblock_roundtrip_six_decimals (m n : ℕ) (X : ℕ → ℕ → ℚ) (r c : ℕ)
    (z : ℤ) (hr : r < m) (hc : c < n) :
    parse_xblock n (write_xblock m n X) r c = fmtFixed6 (X r c) ∧
    fmtFixed6 ((z : ℚ) / 1000000) = (z : ℚ) / 1000000 ∧
    |parse_xblock n (write_xblock m n X) r c - X r c| ≤ 1 / 2000000 := by
  have hmain : parse_xblock n (write_xblock m n X) r c = fmtFixed6 (X r c) := by
    unfold parse_xblock write_xblock
    exact getD_grid 0 n r m c (fun i j => fmtFixed6 (X i j)) hr hc
  exact ⟨hmain, fmtFixed6_intMul z,
    by rw [hmain]; exact fmtFixed6_close (X r c)⟩

/-- Witness for xblock_roundtrip_six_decimals on the 1 x 1 block with
entry 1/2 = 500000 * 10^-6. -/
theorem xblock_roundtrip_six_decimals_witness :
    parse_xblock 1 (write_xblock 1 1 (fun _ _ => (1 : ℚ) / 2)) 0 0 =
      fmtFixed6 ((1 : ℚ) / 2) ∧
    fmtFixed6 (((500000 : ℤ) : ℚ) / 1000000) = ((500000 : ℤ) : ℚ) / 1000000 ∧
    |parse_xblock 1 (write_xblock 1 1 (fun _ _ => (1 : ℚ) / 2)) 0 0 -
      (1 : ℚ) / 2| ≤ 1 / 2000000 :=
  xblock_roundtrip_six_decimals 1 1 (fun _ _ => (1 : ℚ) / 2) 0 0 500000
    (by decide) (by decide)

/-- C9: the unbatched assembler PAO_model.build_aux_H applied to a
prediction vector v produces exactly the sample-0 slice of
PAO_model.build_aux_H_batch applied to the batch whose (single) row is v,
entry by entry. -/
theorem build_aux_H_agrees_with_batch (ls : List ℕ)
    (wig : ℕ → ℕ → ℕ → ℕ → ℕ → ℕ → ℝ) (v : ℕ → ℝ) (r c : ℕ) :
    build_aux_H ls wig v r c = build_aux_H_batch ls wig (fun _ k => v k) 0 r c :=
  (foldH_eq_foldHB ls wig (fun _ k => v k) 0 (pairTrips ls)
    (0, fun _ _ => 0) (0, fun _ _ _ => 0) rfl (fun _ _ => rfl)).2 r c

/-- C10: for a structure of n atoms, the PAO_Object built by
pao_objects_from_file for center atom i carries neighbor coordinate and
neighbor one-hot feature lists of exactly n - 1 entries, whose index set
is every atom index except i itself. -/
theorem pao_object_neighbor_lists {α β : Type} (coords : ℕ → α)
    (feats : ℕ → β) (n i j : ℕ) (hi : i < n) :
    (neighbor_coords coords n i).length = n - 1 ∧
    (neighbor_coords feats n i).length = n - 1 ∧
    (j ∈ neighbor_idxs n i ↔ j < n ∧ j ≠ i) := by
  have hlen : (neighbor_idxs n i).length = n - 1 := by
    unfold neighbor_idxs
    rw [List.length_eraseIdx_of_lt (by simpa using hi)]
    simp
  exact ⟨by unfold neighbor_coords; rw [List.length_map, hlen],
    by unfold neighbor_coords; rw [List.length_map, hlen],
    mem_neighbor_idxs n i j⟩

/-- Witness for pao_object_neighbor_lists with three atoms, center atom 1
and probe index 0. -/
theorem pao_object_neighbor_lists_witness :
    (neighbor_coords (fun k : ℕ => k) 3 1).length = 3 - 1 ∧
    (neighbor_coords (fun k : ℕ => 10 * k) 3 1).length = 3 - 1 ∧
    (0 ∈ neighbor_idxs 3 1 ↔ 0 < 3 ∧ 0 ≠ 1) :=
  pao_object_neighbor_lists (fun k : ℕ => k) (fun k : ℕ => 10 * k) 3 1 0
    (by decide)

end PaoEquiMl
